import Mathlib

/-!
# Verification of the ml-dsa crate core (FIPS 204 / ML-DSA)

A shallow embedding of the ml-dsa crate's field arithmetic, decomposition
primitives, hint machinery, bit-packing codecs, derived parameter sizes and
the signing / verification control flow, together with proofs and refutations
of the specification's claims about them.

Conventions of the embedding:
* `FieldElement` values are `Nat`s in canonical form `[0, Q)`, exactly as the
  crate stores them (`algebra::Elem` holds a `u32` canonical residue).
* Polynomials are `List Nat` (256 coefficients in the crate; lengths are type
  level there and tracked by hypotheses here when they matter).
* Rust generic integer parameters (`typenum` arguments such as the modulus of
  `mod_plus_minus` and `decompose`) become ordinary `Nat` arguments.
* Fallible operations (`assert!`, `unreachable!`, `panic!`) return `Option`,
  with `none` marking the panic.

The crate modules `module_lattice` (field/polynomial arithmetic, NTT,
sampling) and `crypto` (the SHAKE XOF), the parameter-set instantiations
(`MlDsa44`/`MlDsa65`/`MlDsa87`, commented out in `lib.rs`) and the
key/signature decoders are not part of the provided sources; where they are
needed they are modelled from the spec, as marked in doc comments.
-/

/-- The prime modulus `q = 2^23 - 2^13 + 1` (`define_field!(BaseField, u32, u64,
u128, 8380417)` in `algebra.rs`). -/
def Q : Nat := 8380417

/-- Modelled from the spec: `module_lattice` field addition on canonical
residues (spec §3: "FieldElement: an integer in [0, q). Arithmetic is
modular."). -/
def fe_add (a b : Nat) : Nat := (a + b) % Q

/-- Modelled from the spec: `module_lattice` field subtraction on canonical
residues. -/
def fe_sub (a b : Nat) : Nat := (a + (Q - b)) % Q

/-- Modelled from the spec: `module_lattice` field negation on canonical
residues. -/
def fe_neg (a : Nat) : Nat := (Q - a) % Q

/-- Floor base-2 logarithm by structural recursion (so that the kernel can
evaluate it); 64 halvings cover every `u64`, mirroring `u64::ilog2`. -/
def ilog2Aux : Nat → Nat → Nat
  | 0, _ => 0
  | fuel + 1, n => if n < 2 then 0 else ilog2Aux fuel (n / 2) + 1

/-- Floor base-2 logarithm (`u64::ilog2`) for the operand sizes the crate uses. -/
def ilog2 (n : Nat) : Nat := ilog2Aux 64 n

/-- Shift amount `BarrettReduce::SHIFT = 2 * (M::U64.ilog2() + 1)` (`algebra.rs`). -/
def barrettShift (M : Nat) : Nat := 2 * (ilog2 M + 1)

/-- The fueled logarithm agrees with `Nat.log2` when the fuel covers the input. -/
theorem ilog2Aux_eq_log2 (fuel : Nat) : ∀ n : Nat, n < 2 ^ fuel →
    ilog2Aux fuel n = Nat.log2 n := by
  induction fuel with
  | zero =>
      intro n h
      have hn : n = 0 := by simpa using h
      subst hn
      simp [ilog2Aux, Nat.log2]
  | succ f ih =>
      intro n h
      by_cases h2 : n < 2
      · rw [ilog2Aux, if_pos h2, Nat.log2, if_neg (by omega)]
      · have hhalf : n / 2 < 2 ^ f := by
          have hp : 2 ^ (f + 1) = 2 * 2 ^ f := by ring
          omega
        rw [ilog2Aux, if_neg h2, ih (n / 2) hhalf]
        conv_rhs => rw [Nat.log2]
        rw [if_pos (by omega)]

/-- On every `u64`, `ilog2` agrees with `Nat.log2`. -/
theorem ilog2_eq_log2 (n : Nat) (h : n < 2 ^ 64) : ilog2 n = Nat.log2 n :=
  ilog2Aux_eq_log2 64 n h

/-- Multiplier `BarrettReduce::MULTIPLIER = (1 << SHIFT) / M::U64` (`algebra.rs`). -/
def barrettMultiplier (M : Nat) : Nat := 2 ^ barrettShift M / M

/-- Reduction `BarrettReduce::reduce` (`algebra.rs`): quotient estimate via the
precomputed multiplier, then one conditional subtraction.  The multiply runs
in `u64` in the source, hence the explicit `% 2^64`; the subtractions cannot
underflow in range (established in `barrettReduce_eq_mod`). -/
def barrettReduce (M x : Nat) : Nat :=
  let quotient := ((x * barrettMultiplier M) % 2 ^ 64) >>> barrettShift M
  let remainder := x - quotient * M
  if remainder < M then remainder else remainder - M

/-- Centred reduction `AlgebraExt::mod_plus_minus` for `FieldElement` (`algebra.rs`): reduce mod
`M`, then recentre into `(-M/2, M/2]`, stored canonically. -/
def mod_plus_minus (M x : Nat) : Nat :=
  let raw := barrettReduce M x
  if raw ≤ M / 2 then raw else fe_sub raw M

/-- Decomposition `Decompose::decompose` for `FieldElement` (`algebra.rs`, Algorithm 36):
the modulus argument is the Rust `TwoGamma2` type parameter. -/
def decompose (M r : Nat) : Nat × Nat :=
  let r0 := mod_plus_minus M r
  if fe_sub r r0 = Q - 1 then (0, fe_sub r0 1)
  else ((fe_sub r r0) / M, r0)

/-- High part `AlgebraExt::high_bits` (`algebra.rs`, Algorithm 37). -/
def high_bits (M r : Nat) : Nat := (decompose M r).1

/-- Low part `AlgebraExt::low_bits` (`algebra.rs`, Algorithm 38). -/
def low_bits (M r : Nat) : Nat := (decompose M r).2

/-- Infinity norm `AlgebraExt::infinity_norm` for `FieldElement` (`algebra.rs`). -/
def infinity_norm (x : Nat) : Nat := if x ≤ Q / 2 then x else Q - x

/-- Core of the Barrett argument: with a multiplier `c` satisfying
`c * M ≤ 2^s < c * M + M` and `M^2 < 2^s`, the quotient estimate
`x * c / 2^s` is `x / M` or `x / M - 1`, so one conditional subtraction
computes `x % M` for `x < M^2`. -/
theorem barrett_core (M x c s : Nat) (hM : 2 ≤ M)
    (hcM_le : c * M ≤ 2 ^ s) (hcM_ge : 2 ^ s < c * M + M)
    (hs_gt : M * M < 2 ^ s) (hxM : x < M * M) :
    (if x - x * c / 2 ^ s * M < M then x - x * c / 2 ^ s * M
     else x - x * c / 2 ^ s * M - M) = x % M := by
  have hMpos : 0 < M := by omega
  have hspos : 0 < (2 : Nat) ^ s := Nat.pos_pow_of_pos s (by omega)
  have hdm := Nat.div_add_mod x M
  have hmod_lt : x % M < M := Nat.mod_lt x hMpos
  -- the estimated quotient times M stays below x
  have hq1 : x * c / 2 ^ s * 2 ^ s ≤ x * c := Nat.div_mul_le_self _ _
  have hq2 : x * c * M ≤ x * 2 ^ s := by
    calc x * c * M = x * (c * M) := by ring
      _ ≤ x * 2 ^ s := Nat.mul_le_mul_left x hcM_le
  have hq_le : x * c / 2 ^ s * M ≤ x := by
    have h4 : x * c / 2 ^ s * M * 2 ^ s ≤ x * 2 ^ s := by
      calc x * c / 2 ^ s * M * 2 ^ s = x * c / 2 ^ s * 2 ^ s * M := by ring
        _ ≤ x * c * M := Nat.mul_le_mul_right M hq1
        _ ≤ x * 2 ^ s := hq2
    exact Nat.le_of_mul_le_mul_right h4 hspos
  -- the estimated quotient undershoots x / M by at most one
  have hf_lt : x / M < M := Nat.div_lt_of_lt_mul hxM
  have hf_le : x / M ≤ x * c / 2 ^ s + 1 := by
    rcases Nat.eq_zero_or_pos (x / M) with hf0 | hfpos
    · rw [hf0]; exact Nat.zero_le _
    · have hfM : x / M * M ≤ x := Nat.div_mul_le_self x M
      have h1 : x / M * (c * M) ≤ x * c := by
        calc x / M * (c * M) = x / M * M * c := by ring
          _ ≤ x * c := Nat.mul_le_mul_right c hfM
      have h2 : x / M * 2 ^ s < x / M * (c * M) + x / M * M := by
        calc x / M * 2 ^ s < x / M * (c * M + M) := (Nat.mul_lt_mul_left hfpos).mpr hcM_ge
          _ = x / M * (c * M) + x / M * M := by ring
      have h3 : x / M * M < M * M := (Nat.mul_lt_mul_right hMpos).mpr hf_lt
      have h5 : (x / M - 1) * 2 ^ s ≤ x * c := by
        have he : (x / M - 1) * 2 ^ s + 2 ^ s = x / M * 2 ^ s := by
          calc (x / M - 1) * 2 ^ s + 2 ^ s = (x / M - 1 + 1) * 2 ^ s := by ring
            _ = x / M * 2 ^ s := by rw [Nat.sub_add_cancel hfpos]
        omega
      have h6 : x / M - 1 ≤ x * c / 2 ^ s := (Nat.le_div_iff_mul_le hspos).mpr h5
      omega
  -- so the estimate is x / M or x / M - 1; either way the subtraction lands
  have hcases : x * c / 2 ^ s * M = M * (x / M) ∨
      x * c / 2 ^ s * M + M = M * (x / M) := by
    have hq_le' : x * c / 2 ^ s ≤ x / M := by
      by_contra hcon
      push_neg at hcon
      have h1 : (x / M + 1) * M ≤ x * c / 2 ^ s * M :=
        Nat.mul_le_mul_right M (by omega)
      have h2 : (x / M + 1) * M = M * (x / M) + M := by ring
      omega
    rcases Nat.eq_or_lt_of_le hq_le' with heq | hlt
    · left; rw [heq]; ring
    · right
      have heq1 : x * c / 2 ^ s + 1 = x / M := by omega
      rw [← heq1]; ring
  rcases hcases with h | h <;> split <;> omega

/-- Barrett reduction computes `x % M` whenever `x < M^2` (the precondition
stated in `algebra.rs`'s comment), for moduli and inputs of the sizes the
crate uses (`x` is a `u32`, every modulus is below `2^24`). -/
theorem barrettReduce_eq_mod (M x : Nat) (hM : 2 ≤ M) (hMlt : M < 2 ^ 24)
    (hx32 : x < 2 ^ 32) (hxM : x < M * M) : barrettReduce M x = x % M := by
  have hMne : M ≠ 0 := by omega
  have hMpos : 0 < M := by omega
  have hMlow : 2 ^ Nat.log2 M ≤ M := Nat.log2_self_le hMne
  have hMhigh : M < 2 ^ (Nat.log2 M + 1) := Nat.lt_log2_self
  have hil : ilog2 M = Nat.log2 M := ilog2_eq_log2 M (by omega)
  have hspow : (2 : Nat) ^ barrettShift M =
      2 ^ (Nat.log2 M + 1) * 2 ^ (Nat.log2 M + 1) := by
    rw [barrettShift, hil, Nat.two_mul, Nat.pow_add]
  have hs_gt : M * M < 2 ^ barrettShift M := by
    rw [hspow]
    calc M * M < 2 ^ (Nat.log2 M + 1) * M := (Nat.mul_lt_mul_right hMpos).mpr hMhigh
      _ ≤ 2 ^ (Nat.log2 M + 1) * 2 ^ (Nat.log2 M + 1) :=
          Nat.mul_le_mul_left _ (Nat.le_of_lt hMhigh)
  have hs_le : 2 ^ barrettShift M ≤ 4 * (M * M) := by
    rw [hspow]
    have h2M : 2 ^ (Nat.log2 M + 1) ≤ 2 * M := by
      rw [Nat.pow_succ, Nat.mul_comm]
      omega
    calc 2 ^ (Nat.log2 M + 1) * 2 ^ (Nat.log2 M + 1) ≤ 2 * M * (2 * M) :=
          Nat.mul_le_mul h2M h2M
      _ = 4 * (M * M) := by ring
  have hcM_le : barrettMultiplier M * M ≤ 2 ^ barrettShift M := by
    rw [barrettMultiplier]
    exact Nat.div_mul_le_self _ M
  have hcM_ge : 2 ^ barrettShift M < barrettMultiplier M * M + M := by
    have h1 := Nat.div_add_mod (2 ^ barrettShift M) M
    have h2 : 2 ^ barrettShift M % M < M := Nat.mod_lt _ hMpos
    have h3 : barrettMultiplier M * M = M * (2 ^ barrettShift M / M) := by
      rw [barrettMultiplier]; ring
    omega
  have hc_le : barrettMultiplier M ≤ 4 * M := by
    have h1 : barrettMultiplier M * M ≤ 4 * M * M := by
      calc barrettMultiplier M * M ≤ 2 ^ barrettShift M := hcM_le
        _ ≤ 4 * (M * M) := hs_le
        _ = 4 * M * M := by ring
    exact Nat.le_of_mul_le_mul_right h1 hMpos
  have hov : x * barrettMultiplier M < 2 ^ 64 := by
    calc x * barrettMultiplier M ≤ x * (4 * M) := Nat.mul_le_mul_left x hc_le
      _ < 2 ^ 32 * (4 * M) := (Nat.mul_lt_mul_right (by omega)).mpr hx32
      _ ≤ 2 ^ 32 * (4 * 2 ^ 24) := Nat.mul_le_mul_left _ (by omega)
      _ ≤ 2 ^ 64 := by norm_num
  have hz : barrettReduce M x =
      (if x - x * barrettMultiplier M / 2 ^ barrettShift M * M < M then
        x - x * barrettMultiplier M / 2 ^ barrettShift M * M
       else x - x * barrettMultiplier M / 2 ^ barrettShift M * M - M) := by
    simp only [barrettReduce]
    rw [Nat.mod_eq_of_lt hov, Nat.shiftRight_eq_div_pow]
  rw [hz]
  exact barrett_core M x _ _ hM hcM_le hcM_ge hs_gt hxM

/-- Closed form of `mod_plus_minus` on canonical inputs: reduce mod `M`, then
values above `M/2` are shifted down by `M` (stored as `+ (Q - M)`). -/
theorem mod_plus_minus_eq (M x : Nat) (hM : 2 ≤ M) (hMlt : M < 2 ^ 24)
    (hMQ : M ≤ Q) (hx32 : x < 2 ^ 32) (hxM : x < M * M) :
    mod_plus_minus M x = if x % M ≤ M / 2 then x % M else x % M + (Q - M) := by
  have hmod := Nat.mod_lt x (show 0 < M by omega)
  simp only [mod_plus_minus, barrettReduce_eq_mod M x hM hMlt hx32 hxM]
  by_cases h : x % M ≤ M / 2
  · rw [if_pos h, if_pos h]
  · rw [if_neg h, if_neg h, fe_sub]
    exact Nat.mod_eq_of_lt (by omega)

/-- Characterisation of `decompose` at an even modulus `2*g` dividing `Q - 1`
(the shape of every modulus the crate decomposes at): the parts recombine to
`r` mod `Q`, the low part is canonical with centred magnitude at most `g`, and
the high part stays below `(Q-1)/(2*g)`. -/
theorem decompose_spec (g r : Nat) (hg : 1 ≤ g) (hdvd : 2 * g ∣ Q - 1)
    (hsq : Q ≤ 2 * g * (2 * g)) (hlt : 2 * g < 2 ^ 24) (hr : r < Q) :
    ((decompose (2 * g) r).1 * (2 * g) + (decompose (2 * g) r).2) % Q = r ∧
      (decompose (2 * g) r).2 < Q ∧
      infinity_norm ((decompose (2 * g) r).2) ≤ g ∧
      (decompose (2 * g) r).1 < (Q - 1) / (2 * g) := by
  have hQ : Q = 8380417 := rfl
  have hMpos : 0 < 2 * g := by omega
  have hM2 : 2 ≤ 2 * g := by omega
  have hMQ1 : 2 * g ≤ Q - 1 := Nat.le_of_dvd (by omega) hdvd
  obtain ⟨mq, hmq⟩ := hdvd
  have hmqpos : 1 ≤ mq := by
    rcases Nat.eq_zero_or_pos mq with h0 | h1
    · rw [h0, Nat.mul_zero] at hmq; omega
    · exact h1
  have hmqdiv : (Q - 1) / (2 * g) = mq := by
    rw [hmq]; exact Nat.mul_div_cancel_left mq hMpos
  have hraw_lt : r % (2 * g) < 2 * g := Nat.mod_lt r hMpos
  have hraw_le : r % (2 * g) ≤ r := Nat.mod_le r _
  have hdm := Nat.div_add_mod r (2 * g)
  have hk_le : r / (2 * g) ≤ mq := by
    rw [← hmqdiv]
    exact Nat.div_le_div_right (by omega)
  have hg2 : 2 * g / 2 = g := Nat.mul_div_cancel_left g (by norm_num)
  have hmp : mod_plus_minus (2 * g) r =
      if r % (2 * g) ≤ g then r % (2 * g) else r % (2 * g) + (Q - 2 * g) := by
    rw [mod_plus_minus_eq (2 * g) r hM2 hlt (by omega) (by omega)
      (lt_of_lt_of_le hr hsq), hg2]
  by_cases hcase : r % (2 * g) ≤ g
  · -- low half of the residue range: the low part is the raw residue
    have hfs : fe_sub r (r % (2 * g)) = r - r % (2 * g) := by
      rw [fe_sub]
      have h1 : r + (Q - r % (2 * g)) = Q + (r - r % (2 * g)) := by omega
      rw [h1, Nat.add_mod_left]
      exact Nat.mod_eq_of_lt (by omega)
    have hA : r - r % (2 * g) = 2 * g * (r / (2 * g)) := by omega
    by_cases hsp : r - r % (2 * g) = Q - 1
    · -- the r - r0 = q - 1 special case forces r = q - 1
      have hraw0 : r % (2 * g) = 0 := by omega
      have hfe1 : fe_sub (r % (2 * g)) 1 = Q - 1 := by
        rw [hraw0, fe_sub, Nat.zero_add]
        exact Nat.mod_eq_of_lt (by omega)
      have hdec : decompose (2 * g) r = (0, Q - 1) := by
        simp only [decompose, hmp, if_pos hcase, hfs, if_pos hsp, hfe1]
      rw [hdec]
      refine ⟨?_, by omega, ?_, ?_⟩
      · rw [Nat.zero_mul, Nat.zero_add, Nat.mod_eq_of_lt (by omega)]
        omega
      · simp only [infinity_norm]
        rw [if_neg (by omega)]
        omega
      · rw [hmqdiv]; omega
    · have hdiv : 2 * g * (r / (2 * g)) / (2 * g) = r / (2 * g) :=
        Nat.mul_div_cancel_left _ hMpos
      have hsp' : ¬(2 * g * (r / (2 * g)) = Q - 1) := by omega
      have hdec : decompose (2 * g) r = (r / (2 * g), r % (2 * g)) := by
        simp only [decompose, hmp, if_pos hcase, hfs, hA, if_neg hsp', hdiv]
      rw [hdec]
      have hcm : r / (2 * g) * (2 * g) = 2 * g * (r / (2 * g)) := Nat.mul_comm _ _
      refine ⟨?_, by omega, ?_, ?_⟩
      · have h1 : r / (2 * g) * (2 * g) + r % (2 * g) = r := by omega
        rw [h1]; exact Nat.mod_eq_of_lt hr
      · simp only [infinity_norm]
        rw [if_pos (by omega)]
        omega
      · rw [hmqdiv]
        have h2 : 2 * g * (r / (2 * g)) < 2 * g * mq := by omega
        exact Nat.lt_of_mul_lt_mul_left h2
  · -- high half: the low part is the residue recentred below zero
    have hr0 : mod_plus_minus (2 * g) r = r % (2 * g) + (Q - 2 * g) := by
      rw [hmp, if_neg hcase]
    have hk_lt : r / (2 * g) < mq := by
      rcases Nat.eq_or_lt_of_le hk_le with heq | h
      · exfalso
        have hprod : 2 * g * (r / (2 * g)) = 2 * g * mq := by rw [heq]
        omega
      · exact h
    have hB : 2 * g * (r / (2 * g) + 1) = 2 * g * (r / (2 * g)) + 2 * g := by ring
    have hB_le : 2 * g * (r / (2 * g) + 1) ≤ Q - 1 := by
      have h1 : 2 * g * (r / (2 * g) + 1) ≤ 2 * g * mq :=
        Nat.mul_le_mul_left _ (by omega)
      omega
    have hfs : fe_sub r (r % (2 * g) + (Q - 2 * g)) = 2 * g * (r / (2 * g) + 1) := by
      rw [fe_sub]
      have h1 : r + (Q - (r % (2 * g) + (Q - 2 * g))) = 2 * g * (r / (2 * g) + 1) := by
        omega
      rw [h1]
      exact Nat.mod_eq_of_lt (by omega)
    by_cases hsp : 2 * g * (r / (2 * g) + 1) = Q - 1
    · -- special case with a negative low part: subtracting one lands on r itself
      have hfe1 : fe_sub (r % (2 * g) + (Q - 2 * g)) 1 = r := by
        rw [fe_sub]
        have h1 : r % (2 * g) + (Q - 2 * g) + (Q - 1) = Q + r := by omega
        rw [h1, Nat.add_mod_left]
        exact Nat.mod_eq_of_lt hr
      have hdec : decompose (2 * g) r = (0, r) := by
        simp only [decompose, hr0, hfs, if_pos hsp, hfe1]
      rw [hdec]
      refine ⟨?_, by omega, ?_, ?_⟩
      · rw [Nat.zero_mul, Nat.zero_add]; exact Nat.mod_eq_of_lt hr
      · simp only [infinity_norm]
        rw [if_neg (by omega)]
        omega
      · rw [hmqdiv]; omega
    · have hdiv : 2 * g * (r / (2 * g) + 1) / (2 * g) = r / (2 * g) + 1 :=
        Nat.mul_div_cancel_left _ hMpos
      have hdec : decompose (2 * g) r =
          (r / (2 * g) + 1, r % (2 * g) + (Q - 2 * g)) := by
        simp only [decompose, hr0, hfs, if_neg hsp, hdiv]
      rw [hdec]
      have hcm : (r / (2 * g) + 1) * (2 * g) = 2 * g * (r / (2 * g) + 1) :=
        Nat.mul_comm _ _
      refine ⟨?_, by omega, ?_, ?_⟩
      · have h1 : (r / (2 * g) + 1) * (2 * g) + (r % (2 * g) + (Q - 2 * g)) = r + Q := by
          omega
        rw [h1, Nat.add_mod_right]
        exact Nat.mod_eq_of_lt hr
      · simp only [infinity_norm]
        rw [if_neg (by omega)]
        omega
      · rw [hmqdiv]
        have h2 : 2 * g * (r / (2 * g) + 1) < 2 * g * mq := by omega
        exact Nat.lt_of_mul_lt_mul_left h2

/-- Hint creation `make_hint` (`hint.rs`): the hint bit records whether adding `z` to `r`
changes the high bits.  The modulus argument is the Rust `Gamma2` type
parameter, which `Hint::new` instantiates with the parameter set's
`P::Gamma2`. -/
def make_hint (G z r : Nat) : Bool :=
  decide (high_bits G r ≠ high_bits G (fe_add r z))

/-- Hint application `use_hint` (`hint.rs`): `none` models the `unreachable!()` branch. -/
def use_hint (G : Nat) (h : Bool) (r : Nat) : Option Nat :=
  let m : Nat := (Q - 1) / (2 * G)
  let d := decompose G r
  if h = true ∧ d.2 ≤ G then some ((d.1 + 1) % m)
  else if h = true ∧ d.2 > Q - G then some ((d.1 + m - 1) % m)
  else if h = true then none
  else some d.1

/-- A canonical value of small infinity norm sits near 0 or near `Q`. -/
theorem infinity_norm_cases (x b : Nat) (hx : x < Q) (hb : infinity_norm x ≤ b) :
    x ≤ b ∨ Q - b ≤ x := by
  simp only [infinity_norm] at hb
  by_cases h : x ≤ Q / 2
  · rw [if_pos h] at hb; left; exact hb
  · rw [if_neg h] at hb; right; omega

/-- At an even modulus dividing `Q - 1`, `use_hint` never reaches the
`unreachable!()` branch: `decompose`'s low part always satisfies one of the
two branch guards. -/
theorem use_hint_total_core (g : Nat) (hg : 1 ≤ g) (hdvd : 2 * g ∣ Q - 1)
    (hsq : Q ≤ 2 * g * (2 * g)) (hlt : 2 * g < 2 ^ 24) (h : Bool) (r : Nat)
    (hr : r < Q) : (use_hint (2 * g) h r).isSome = true := by
  obtain ⟨-, hr0lt, hnorm, -⟩ := decompose_spec g r hg hdvd hsq hlt hr
  have hcases : (decompose (2 * g) r).2 ≤ g ∨ Q - g ≤ (decompose (2 * g) r).2 :=
    infinity_norm_cases _ g hr0lt hnorm
  have hgQ : 2 * g ≤ Q - 1 := Nat.le_of_dvd (by norm_num [Q]) hdvd
  have hQ : Q = 8380417 := rfl
  cases h
  · simp [use_hint]
  · simp only [use_hint]
    by_cases hc1 : (decompose (2 * g) r).2 ≤ 2 * g
    · rw [if_pos ⟨by trivial, hc1⟩]; rfl
    · rw [if_neg (fun hcon => hc1 hcon.2), if_pos ⟨by trivial, by omega⟩]; rfl

/-- C10: at the crate's two `Gamma2` values the `unreachable!()` branch of
`use_hint` is dead code: for every hint bit `h` and every canonical field
element `r`, `use_hint` returns a value, so verification cannot panic
there. -/
theorem use_hint_no_panic (h : Bool) (r : Nat) (hr : r < Q) :
    (use_hint 95232 h r).isSome = true ∧ (use_hint 261888 h r).isSome = true := by
  constructor
  · have := use_hint_total_core 47616 (by norm_num) ⟨88, by norm_num [Q]⟩
      (by norm_num [Q]) (by norm_num) h r hr
    simpa using this
  · have := use_hint_total_core 130944 (by norm_num) ⟨32, by norm_num [Q]⟩
      (by norm_num [Q]) (by norm_num) h r hr
    simpa using this

/-- Witness for `use_hint_no_panic` at the largest field element. -/
theorem use_hint_no_panic_witness :
    (use_hint 95232 true 8380416).isSome = true ∧
      (use_hint 261888 true 8380416).isSome = true :=
  use_hint_no_panic true 8380416 (by norm_num [Q])

/-- C5: the decomposition law at `2 * γ2` for both γ2 values in use:
`r1 * 2γ2 + r0 ≡ r (mod q)`, the centred low part has magnitude at most γ2,
and the high part lies below `(q - 1) / (2 γ2)`. -/
theorem decompose_law (γ2 : Nat) (hγ : γ2 = 95232 ∨ γ2 = 261888) (r : Nat)
    (hr : r < Q) :
    ((decompose (2 * γ2) r).1 * (2 * γ2) + (decompose (2 * γ2) r).2) % Q = r ∧
      infinity_norm ((decompose (2 * γ2) r).2) ≤ γ2 ∧
      (decompose (2 * γ2) r).1 < (Q - 1) / (2 * γ2) := by
  rcases hγ with rfl | rfl
  · have h := decompose_spec 95232 r (by norm_num) ⟨44, by norm_num [Q]⟩
      (by norm_num [Q]) (by norm_num) hr
    exact ⟨h.1, h.2.2.1, h.2.2.2⟩
  · have h := decompose_spec 261888 r (by norm_num) ⟨16, by norm_num [Q]⟩
      (by norm_num [Q]) (by norm_num) hr
    exact ⟨h.1, h.2.2.1, h.2.2.2⟩

/-- Witness for `decompose_law` at γ2 = 95232, r = 1234567. -/
theorem decompose_law_witness :
    ((decompose (2 * 95232) 1234567).1 * (2 * 95232) +
        (decompose (2 * 95232) 1234567).2) % Q = 1234567 ∧
      infinity_norm ((decompose (2 * 95232) 1234567).2) ≤ 95232 ∧
      (decompose (2 * 95232) 1234567).1 < (Q - 1) / (2 * 95232) :=
  decompose_law 95232 (Or.inl rfl) 1234567 (by norm_num [Q])

/-- C7: Barrett reduction agrees with `% M` for each modulus the crate
reduces by (`q`, the two `2 * γ2` values, and `2^13`), on every `u32` input
below `M^2`. -/
theorem barrett_reduce_law (x : Nat) (hx : x < 2 ^ 32) :
    (x < 8380417 * 8380417 → barrettReduce 8380417 x = x % 8380417) ∧
      (x < 190464 * 190464 → barrettReduce 190464 x = x % 190464) ∧
      (x < 523776 * 523776 → barrettReduce 523776 x = x % 523776) ∧
      (x < 8192 * 8192 → barrettReduce 8192 x = x % 8192) :=
  ⟨fun h => barrettReduce_eq_mod 8380417 x (by norm_num) (by norm_num) hx h,
    fun h => barrettReduce_eq_mod 190464 x (by norm_num) (by norm_num) hx h,
    fun h => barrettReduce_eq_mod 523776 x (by norm_num) (by norm_num) hx h,
    fun h => barrettReduce_eq_mod 8192 x (by norm_num) (by norm_num) hx h⟩

/-- Witness for `barrett_reduce_law` at x = 1000000. -/
theorem barrett_reduce_law_witness :
    barrettReduce 8380417 1000000 = 1000000 % 8380417 ∧
      barrettReduce 190464 1000000 = 1000000 % 190464 ∧
      barrettReduce 523776 1000000 = 1000000 % 523776 ∧
      barrettReduce 8192 1000000 = 1000000 % 8192 :=
  ⟨(barrett_reduce_law 1000000 (by norm_num)).1 (by norm_num),
    (barrett_reduce_law 1000000 (by norm_num)).2.1 (by norm_num),
    (barrett_reduce_law 1000000 (by norm_num)).2.2.1 (by norm_num),
    (barrett_reduce_law 1000000 (by norm_num)).2.2.2 (by norm_num)⟩

set_option maxRecDepth 40000 in
/-- C3 counterexample: at γ2 = 95232, z = 1 (infinity norm 1 ≤ γ2) and
r = 47616 the hint bit is set, and `use_hint` applied to the hint and `r + z`
differs from `high_bits (r + z)`: the claimed identity
`UseHint(MakeHint(z, r), r + z) = HighBits(r + z)` fails. -/
theorem hint_identity_cex :
    infinity_norm 1 ≤ 95232 ∧ make_hint 95232 1 47616 = true ∧
      use_hint 95232 (make_hint 95232 1 47616) (fe_add 47616 1) ≠
        some (high_bits 95232 (fe_add 47616 1)) := by decide

/-- C3 amended: whenever the hint bit `make_hint z r` is clear, `use_hint`
applied to it and `r + z` returns `high_bits (r + z)`; with a set hint bit
the identity fails (see the counterexample). -/
theorem hint_identity_amended (G z r : Nat) (hh : make_hint G z r = false) :
    use_hint G (make_hint G z r) (fe_add r z) =
      some (high_bits G (fe_add r z)) := by
  rw [hh]
  simp [use_hint, high_bits]

set_option maxRecDepth 40000 in
/-- Witness for `hint_identity_amended` at G = 95232, z = 0, r = 0. -/
theorem hint_identity_amended_witness :
    make_hint 95232 0 0 = false ∧
      use_hint 95232 (make_hint 95232 0 0) (fe_add 0 0) =
        some (high_bits 95232 (fe_add 0 0)) :=
  ⟨by decide, hint_identity_amended 95232 0 0 (by decide)⟩

/-- Chunking as in `slice::chunks` (used in `encode.rs`): split into consecutive chunks of
`step` elements, the last one possibly shorter.  Structural fuel equal to the
list length suffices for any positive `step`. -/
def chunksAux {α : Type} (step : Nat) : Nat → List α → List (List α)
  | 0, _ => []
  | _ + 1, [] => []
  | fuel + 1, l => l.take step :: chunksAux step fuel (l.drop step)

/-- Chunking with chunk size `step` (`slice::chunks`). -/
def chunks {α : Type} (step : Nat) (l : List α) : List (List α) :=
  chunksAux step l.length l

/-- Number of bits of a positive integer (`typenum`'s `Length`, used by
`param.rs` as `Length<Sum<A, B>>`). -/
def bitlen (n : Nat) : Nat := ilog2 n + 1

/-- Values per unit, `EncodingSize::ValueStep = EncodingUnit<D> / D` with
`EncodingUnit<D> = D * 8 / gcd(D, 8)` (`param.rs`). -/
def valStep (D : Nat) : Nat := D * 8 / Nat.gcd D 8 / D

/-- Bytes per unit, `EncodingSize::ByteStep = EncodingUnit<D> / 8` (`param.rs`). -/
def byteStep (D : Nat) : Nat := D * 8 / Nat.gcd D 8 / 8

/-- The accumulator of one `simple_bit_pack` unit (`encode.rs`):
`x |= u128::from(*vj) << (D::USIZE * j)`. -/
def packChunk (D : Nat) (v : List Nat) : Nat :=
  (List.enum v).foldl (fun x p => x ||| (p.2 <<< (D * p.1))) 0

/-- Algorithm 16 `SimpleBitPack` (`encode.rs`): per unit of `valStep D`
values, accumulate and emit the low `byteStep D` bytes little-endian
(`x.to_le_bytes()` truncated to `byte_step`). -/
def simple_bit_pack (D : Nat) (vals : List Nat) : List Nat :=
  (chunks (valStep D) vals).flatMap (fun v =>
    (List.range (byteStep D)).map (fun i => (packChunk D v >>> (8 * i)) % 256))

/-- The accumulator of one `simple_bit_unpack` unit (`encode.rs`):
`u128::from_le_bytes` of the unit's bytes zero-extended. -/
def unpackChunk (b : List Nat) : Nat :=
  (List.enum b).foldl (fun x p => x + p.2 * 2 ^ (8 * p.1)) 0

/-- Algorithm 18 `SimpleBitUnpack` (`encode.rs`): per unit of `byteStep D`
bytes, extract `valStep D` fields of `D` bits (`(x >> (D*j)) & mask` with
`mask = (1 << D) - 1`).  The crate writes into a fixed 256-slot array; on the
exact-sized inputs the crate uses this is the same list. -/
def simple_bit_unpack (D : Nat) (bytes : List Nat) : List Nat :=
  (chunks (byteStep D) bytes).flatMap (fun b =>
    (List.range (valStep D)).map (fun j =>
      (unpackChunk b >>> (D * j)) &&& ((1 <<< D) - 1)))

/-- Algorithm 17 `BitPack` (`encode.rs`): encode `b - w` (field subtraction)
at width `bitlen (a + b)`; the `assert!(w.0 <= b.0 || w.0 >= (-a).0)` becomes
`none` (panic). -/
def bit_pack (a b : Nat) (vals : List Nat) : Option (List Nat) :=
  if ∀ w ∈ vals, w ≤ b ∨ fe_neg a ≤ w then
    some (simple_bit_pack (bitlen (a + b)) (vals.map (fun w => fe_sub b w)))
  else none

/-- Decoding `BitUnpack` (`encode.rs`): decode at width `bitlen (a + b)` and return
`b - z`; the `assert!(z.0 < (a + b).0)` becomes `none` (panic). -/
def bit_unpack (a b : Nat) (bytes : List Nat) : Option (List Nat) :=
  let decoded := simple_bit_unpack (bitlen (a + b)) bytes
  if ∀ z ∈ decoded, z < fe_add a b then
    some (decoded.map (fun z => fe_sub b z))
  else none

/-- The η = 2 test polynomial with one coefficient at the extreme value
`-2` (canonically `Q - 2`) and the rest zero. -/
def vEta : List Nat := (Q - 2) :: List.replicate 255 0

set_option maxRecDepth 100000 in
/-- C4: at the η = 2 width (3 bits) the signed codec round trip panics on the
extreme value `-a = -2`: `bit_pack` succeeds and emits the declared 32·D = 96
bytes, but `bit_unpack` of that very output hits the
`assert!(z.0 < (a + b).0)` (the encoded value is exactly a + b), so
`BitUnpack(BitPack(v))` aborts rather than returning `v`. -/
theorem bit_pack_neg_a_panics :
    (bit_pack 2 2 vEta).isSome = true ∧
      Option.map List.length (bit_pack 2 2 vEta) = some 96 ∧
      (bit_pack 2 2 vEta).bind (bit_unpack 2 2) = none := by decide

/-- Codec width `RangeEncodingBits<A, B> = Length<Sum<A, B>>` (`param.rs`): the bit width
of the signed codec for the range `[-a, b]`. -/
def rangeEncodingBits (a b : Nat) : Nat := bitlen (a + b)

/-- Encoded polynomial size `EncodingSize::EncodedPolynomialSize = Prod<D, U32>` bytes (`param.rs`). -/
def encodedPolynomialSize (D : Nat) : Nat := D * 32

/-- Size `SignatureParams::ZSize` of the z component of an encoded signature,
`RangeEncodedPolynomialSize<Gamma1 - 1, Gamma1> * L` (`param.rs`). -/
def zSize (gamma1 L : Nat) : Nat :=
  encodedPolynomialSize (rangeEncodingBits (gamma1 - 1) gamma1) * L

/-- Hint size `SignatureParams::HintSize = Sum<Omega, K>` (`param.rs`). -/
def hintSize (omega K : Nat) : Nat := omega + K

/-- Full size `SignatureParams::SignatureSize = Lambda + ZSize + HintSize`
(`param.rs`). -/
def signatureSize (lambda gamma1 L omega K : Nat) : Nat :=
  lambda + zSize gamma1 L + hintSize omega K

/-- Concatenation `SignatureParams::concat_sig` (`param.rs`): `c_tilde ‖ z ‖ h`. -/
def concat_sig (c z h : List Nat) : List Nat := c ++ z ++ h

/-- C8: for the three parameter sets the encoded signature length is exactly
λ + 32·w·L + ω + K where w is the per-coefficient bit width of the γ1 codec
(18 bits for γ1 = 2^17, 20 bits for γ1 = 2^19), i.e. 2420, 3309 and 4627
bytes; the z component occupies 32·w·L bytes. -/
theorem signature_size_law :
    (zSize 131072 4 = 32 * 18 * 4 ∧ zSize 524288 5 = 32 * 20 * 5 ∧
        zSize 524288 7 = 32 * 20 * 7) ∧
      (∀ c z h : List Nat, c.length = 32 → z.length = zSize 131072 4 →
        h.length = hintSize 80 4 →
        (concat_sig c z h).length = 32 + 32 * 18 * 4 + (80 + 4)) ∧
      (∀ c z h : List Nat, c.length = 48 → z.length = zSize 524288 5 →
        h.length = hintSize 55 6 →
        (concat_sig c z h).length = 48 + 32 * 20 * 5 + (55 + 6)) ∧
      (∀ c z h : List Nat, c.length = 64 → z.length = zSize 524288 7 →
        h.length = hintSize 75 8 →
        (concat_sig c z h).length = 64 + 32 * 20 * 7 + (75 + 8)) := by
  have h44 : zSize 131072 4 = 32 * 18 * 4 := by decide
  have h65 : zSize 524288 5 = 32 * 20 * 5 := by decide
  have h87 : zSize 524288 7 = 32 * 20 * 7 := by decide
  have hh44 : hintSize 80 4 = 84 := by decide
  have hh65 : hintSize 55 6 = 61 := by decide
  have hh87 : hintSize 75 8 = 83 := by decide
  refine ⟨⟨h44, h65, h87⟩, ?_, ?_, ?_⟩ <;>
    · intro c z h hc hz hh
      simp only [concat_sig, List.length_append]
      omega

/-- Witness for `signature_size_law` on concrete byte strings of the
component sizes of ML-DSA-44. -/
theorem signature_size_law_witness :
    (concat_sig (List.replicate 32 0) (List.replicate 2304 0)
        (List.replicate 84 0)).length = 32 + 32 * 18 * 4 + (80 + 4) :=
  signature_size_law.2.1 _ _ _ (by rw [List.length_replicate])
    (by rw [List.length_replicate]; decide) (by rw [List.length_replicate]; decide)

/-- Modelled from the spec: coefficient-wise polynomial addition
(`module_lattice`); on the crate's fixed 256-length arrays `zipWith` has the
same semantics. -/
def poly_add (p q : List Nat) : List Nat := List.zipWith fe_add p q

/-- Modelled from the spec: coefficient-wise polynomial subtraction. -/
def poly_sub (p q : List Nat) : List Nat := List.zipWith fe_sub p q

/-- Modelled from the spec: coefficient-wise polynomial negation. -/
def poly_neg (p : List Nat) : List Nat := p.map fe_neg

/-- Modelled from the spec: vector addition. -/
def vec_add (v w : List (List Nat)) : List (List Nat) := List.zipWith poly_add v w

/-- Modelled from the spec: vector subtraction. -/
def vec_sub (v w : List (List Nat)) : List (List Nat) := List.zipWith poly_sub v w

/-- Modelled from the spec: vector negation. -/
def vec_neg (v : List (List Nat)) : List (List Nat) := v.map poly_neg

/-- Infinity norm of a polynomial (`algebra.rs`, `AlgebraExt for Polynomial`):
maximum of the coefficient norms (`.max().unwrap()`; the fold with base 0
agrees on the crate's nonempty arrays). -/
def poly_infinity_norm (p : List Nat) : Nat := (p.map infinity_norm).foldl max 0

/-- Infinity norm of a polynomial vector (`algebra.rs`). -/
def vec_infinity_norm (v : List (List Nat)) : Nat :=
  (v.map poly_infinity_norm).foldl max 0

/-- Coefficient-wise `low_bits` on a vector (`algebra.rs`). -/
def vec_low_bits (M : Nat) (v : List (List Nat)) : List (List Nat) :=
  v.map (fun p => p.map (low_bits M))

/-- Hint matrix construction `Hint::new` (`hint.rs`): coefficient-wise
`make_hint::<P::Gamma2>`. -/
def hint_new (G : Nat) (z r : List (List Nat)) : List (List Bool) :=
  List.zipWith (fun zv rv => List.zipWith (fun a b => make_hint G a b) zv rv) z r

/-- Hint weight `Hint::hamming_weight` (`hint.rs`): the number of set bits. -/
def hamming_weight (h : List (List Bool)) : Nat :=
  (h.map (fun row => (row.filter id).length)).sum

/-- Modelled from the spec (§3 table): an ML-DSA parameter set.  The crate's
`ParameterSet` impls are commented out in `lib.rs` ("until we can define the
extra integers required"), so the three sets are taken from the spec. -/
structure Params where
  K : Nat
  L : Nat
  eta : Nat
  gamma1 : Nat
  gamma2 : Nat
  lambda : Nat
  omega : Nat
  tau : Nat

/-- Derived margin `ParameterSet::BETA = TAU * ETA` (`param.rs`). -/
def Params.beta (P : Params) : Nat := P.tau * P.eta

/-- Modelled from the spec: the ML-DSA-44 parameter set. -/
def MlDsa44 : Params := ⟨4, 4, 2, 131072, 95232, 32, 80, 39⟩

/-- Modelled from the spec: the ML-DSA-65 parameter set. -/
def MlDsa65 : Params := ⟨6, 5, 4, 524288, 261888, 48, 55, 49⟩

/-- Modelled from the spec: the ML-DSA-87 parameter set. -/
def MlDsa87 : Params := ⟨8, 7, 2, 524288, 261888, 64, 75, 60⟩

/-- An ML-DSA signature as `lib.rs` defines it: `(c_tilde, z, h)`. -/
structure Sig where
  c_tilde : List Nat
  z : List (List Nat)
  h : List (List Bool)
deriving DecidableEq

/-- Modelled from the spec: everything `sign_internal` obtains from the
sampling, NTT arithmetic and XOF layers (crate modules `module_lattice` and
`crypto`, absent from src/), for a fixed signing key, message and randomness.
Each field is the deterministic function of the loop counter κ computed by
the corresponding stage: `y = ExpandMask(ρ″, κ)`, `w = NTT⁻¹(Â·NTT(y))`,
`cTilde = H(µ ‖ w1Encode(HighBits(w)))`, `cs1 = NTT⁻¹(ĉ·ŝ1)`,
`cs2 = NTT⁻¹(ĉ·ŝ2)`, `ct0 = NTT⁻¹(ĉ·t̂0)`. -/
structure SignOracle where
  y : Nat → List (List Nat)
  w : Nat → List (List Nat)
  cTilde : Nat → List Nat
  cs1 : Nat → List (List Nat)
  cs2 : Nat → List (List Nat)
  ct0 : Nat → List (List Nat)

/-- One iteration of `sign_internal`'s rejection loop (`lib.rs` lines
129-162) at counter κ; `none` is `continue`.  The `high_bits`/`low_bits`
calls in `sign_internal` leave their `TwoGamma2` type parameter to inference
(the parameter sets that would fix it are commented out); following the spec
(§4.6, Decompose at 2γ2) they are taken at `2 * gamma2`.  The final
recentring `z.mod_plus_minus(FieldElement(Q))` is kept verbatim. -/
def signAttempt (P : Params) (o : SignOracle) (kappa : Nat) : Option Sig :=
  let z := vec_add (o.y kappa) (o.cs1 kappa)
  let r0 := vec_low_bits (2 * P.gamma2) (vec_sub (o.w kappa) (o.cs2 kappa))
  if vec_infinity_norm z > P.gamma1 - P.beta ∨
      vec_infinity_norm r0 > P.gamma2 - P.beta then none
  else
    let h := hint_new P.gamma2 (vec_neg (o.ct0 kappa))
      (vec_add (vec_sub (o.w kappa) (o.cs2 kappa)) (o.ct0 kappa))
    if vec_infinity_norm (o.ct0 kappa) > P.gamma2 ∨
        hamming_weight h > P.omega then none
    else some ⟨o.cTilde kappa, z.map (fun p => p.map (mod_plus_minus Q)), h⟩

/-- The κ sequence of `sign_internal`'s loop:
`(0..u16::MAX).step_by(P::L::USIZE)`, i.e. the multiples of L below 65535. -/
def kappaList (L : Nat) : List Nat :=
  (List.range 65535).filter (fun k => k % L == 0)

/-- Rejection loop of `SigningKey::sign_internal` (`lib.rs`): the first
accepted attempt; `none` models the `panic!` on exhaustion (line 165). -/
def sign_internal (P : Params) (o : SignOracle) : Option Sig :=
  (kappaList P.L).findSome? (signAttempt P o)

/-- Modelled from the spec: what `verify` obtains from the key, the NTT
arithmetic and the XOF for a fixed verification key and message:
`wApprox σ = NTT⁻¹(Â·ẑ - ĉ·t̂1)` and `cpTilde w1 = H(µ ‖ w1Encode(w1))`
(`module_lattice`, `crypto` and `W1Encode` are absent from src/). -/
structure VerifyOracle where
  wApprox : Sig → List (List Nat)
  cpTilde : List (List Nat) → List Nat

/-- Hint application on one polynomial (`Hint::use_hint`, `hint.rs`), with
`none` propagating the `unreachable!()` panic. -/
def use_hint_poly (G : Nat) : List Bool → List Nat → Option (List Nat)
  | [], _ => some []
  | _ :: _, [] => some []
  | hb :: hs, r :: rs => do
      let v ← use_hint G hb r
      let vs ← use_hint_poly G hs rs
      pure (v :: vs)

/-- Hint application on a vector (`Hint::use_hint`, `hint.rs`). -/
def use_hint_vec (G : Nat) :
    List (List Bool) → List (List Nat) → Option (List (List Nat))
  | [], _ => some []
  | _ :: _, [] => some []
  | hv :: hs, rv :: rs => do
      let p ← use_hint_poly G hv rv
      let ps ← use_hint_vec G hs rs
      pure (p :: ps)

/-- Verification `VerificationKey::verify` (`lib.rs` lines 204-235):
reconstruct `w1'` through `use_hint`, hash it, and return
`sigma.z.infinity_norm() < gamma1_threshold && sigma.c_tilde == cp_tilde`.
The norm test and the hint application are the src code; the algebra and
hashing stages are the modelled oracle.  `none` models a panic inside
`use_hint`.  No hint-weight test appears in the source. -/
def verify (P : Params) (o : VerifyOracle) (sigma : Sig) : Option Bool :=
  match use_hint_vec P.gamma2 sigma.h (o.wApprox sigma) with
  | none => none
  | some w1p =>
      some (decide (vec_infinity_norm sigma.z < P.gamma1 - P.beta) &&
        decide (sigma.c_tilde = o.cpTilde w1p))

/-- Reducing mod± by `Q` itself is the identity on canonical values (the
`z.mod_plus_minus(FieldElement(Q))` recentring step of `sign_internal`
does not change canonical coefficients, since `raw - Q + Q = raw`). -/
theorem mod_plus_minus_q_id (x : Nat) (hx : x < Q) : mod_plus_minus Q x = x := by
  have hQ : Q = 8380417 := rfl
  simp only [mod_plus_minus]
  rw [barrettReduce_eq_mod Q x (by norm_num [Q]) (by norm_num [Q]) (by omega)
    (lt_of_lt_of_le hx (Nat.le_mul_of_pos_left Q (by norm_num [Q])))]
  rw [Nat.mod_eq_of_lt hx]
  by_cases h : x ≤ Q / 2
  · rw [if_pos h]
  · rw [if_neg h, fe_sub, Nat.sub_self, Nat.add_zero, Nat.mod_eq_of_lt hx]

/-- Sums of polynomials have canonical coefficients, so the recentring map of
`sign_internal` leaves them unchanged. -/
theorem center_poly_add (p q : List Nat) :
    (poly_add p q).map (mod_plus_minus Q) = poly_add p q := by
  induction p generalizing q with
  | nil => rfl
  | cons a p ih =>
      cases q with
      | nil => rfl
      | cons b q =>
          have hlt : fe_add a b < Q := by
            simp only [fe_add]
            exact Nat.mod_lt _ (by norm_num [Q])
          simp only [poly_add, List.zipWith_cons_cons, List.map_cons]
          rw [mod_plus_minus_q_id (fe_add a b) hlt]
          have := ih q
          simp only [poly_add] at this
          rw [this]

/-- Vector form of `center_poly_add`. -/
theorem center_vec_add (v w : List (List Nat)) :
    (vec_add v w).map (fun p => p.map (mod_plus_minus Q)) = vec_add v w := by
  induction v generalizing w with
  | nil => rfl
  | cons p v ih =>
      cases w with
      | nil => rfl
      | cons q w =>
          simp only [vec_add, List.zipWith_cons_cons, List.map_cons]
          rw [center_poly_add]
          have := ih w
          simp only [vec_add] at this
          rw [this]

/-- An element found by `findSome?` comes from some list element. -/
theorem findSome?_some_mem {α β : Type} (f : α → Option β) (b : β) :
    ∀ l : List α, l.findSome? f = some b → ∃ a, f a = some b := by
  intro l
  induction l with
  | nil => intro h; simp [List.findSome?_nil] at h
  | cons x xs ih =>
      intro h
      rw [List.findSome?_cons] at h
      cases hfx : f x with
      | some y =>
          rw [hfx] at h
          exact ⟨x, hfx.trans h⟩
      | none =>
          rw [hfx] at h
          exact ih h

/-- C6 amended: every signature `sign_internal` returns satisfies
`‖z‖∞ ≤ γ1 - β` (the code rejects only on strict `>`; the bound is not
strict, see the counterexample) and `weight(h) ≤ ω`; equivalently the loop
continues exactly on `‖z‖∞ > γ1 - β` or `‖r0‖∞ > γ2 - β`. -/
theorem sign_internal_norm_bounds (P : Params) (o : SignOracle) (σ : Sig)
    (hs : sign_internal P o = some σ) :
    vec_infinity_norm σ.z ≤ P.gamma1 - P.beta ∧ hamming_weight σ.h ≤ P.omega := by
  obtain ⟨k, hk⟩ := findSome?_some_mem _ σ _ hs
  simp only [signAttempt] at hk
  by_cases h1 : vec_infinity_norm (vec_add (o.y k) (o.cs1 k)) > P.gamma1 - P.beta ∨
      vec_infinity_norm (vec_low_bits (2 * P.gamma2)
        (vec_sub (o.w k) (o.cs2 k))) > P.gamma2 - P.beta
  · rw [if_pos h1] at hk
    exact Option.noConfusion hk
  · rw [if_neg h1] at hk
    by_cases h2 : vec_infinity_norm (o.ct0 k) > P.gamma2 ∨
        hamming_weight (hint_new P.gamma2 (vec_neg (o.ct0 k))
          (vec_add (vec_sub (o.w k) (o.cs2 k)) (o.ct0 k))) > P.omega
    · rw [if_pos h2] at hk
      exact Option.noConfusion hk
    · rw [if_neg h2] at hk
      have hσ := Option.some.inj hk
      subst hσ
      push_neg at h1 h2
      constructor
      · dsimp only
        rw [center_vec_add]
        exact h1.1
      · exact h2.2

/-- The all-zero polynomial. -/
def zeroPoly : List Nat := List.replicate 256 0

/-- A vector of `n` zero polynomials. -/
def zeroVec (n : Nat) : List (List Nat) := List.replicate n zeroPoly

/-- A polynomial with one coefficient at exactly `γ1 - β = 130994`
(ML-DSA-44) and the rest zero. -/
def boundaryPoly : List Nat := 130994 :: List.replicate 255 0

/-- A sign oracle whose first candidate has `‖z‖∞` exactly `γ1 - β`:
the mask has one boundary coefficient and every product term vanishes. -/
def boundaryOracle : SignOracle where
  y := fun _ => boundaryPoly :: zeroVec 3
  w := fun _ => zeroVec 4
  cTilde := fun _ => List.replicate 32 0
  cs1 := fun _ => zeroVec 4
  cs2 := fun _ => zeroVec 4
  ct0 := fun _ => zeroVec 4

/-- The signature `sign_internal` produces under `boundaryOracle`. -/
def boundarySig : Sig :=
  ⟨List.replicate 32 0, boundaryPoly :: zeroVec 3,
    List.replicate 4 (List.replicate 256 false)⟩

/-- The κ list starts with 0 for every step width. -/
theorem kappaList_cons (L : Nat) : ∃ rest, kappaList L = 0 :: rest := by
  have h1 : (65535 : Nat) = 65534 + 1 := rfl
  rw [kappaList, List.range_eq_range', h1, List.range'_succ, List.filter_cons,
    if_pos (by simp)]
  exact ⟨_, rfl⟩

set_option maxRecDepth 100000 in
/-- Under `boundaryOracle`, `sign_internal` accepts the very first candidate
and returns `boundarySig`. -/
theorem boundary_sign_eq : sign_internal MlDsa44 boundaryOracle = some boundarySig := by
  obtain ⟨rest, hk⟩ := kappaList_cons 4
  have h0 : signAttempt MlDsa44 boundaryOracle 0 = some boundarySig := by decide
  have hL : MlDsa44.L = 4 := rfl
  simp only [sign_internal]
  rw [hL, hk, List.findSome?_cons, h0]

set_option maxRecDepth 100000 in
/-- C6 counterexample: `sign_internal` yields a signature whose `‖z‖∞` is
exactly `γ1 - β`, because the rejection test uses strict `>` where the claim
(and FIPS 204 step f) requires restarting on `≥`: the strict bound
`‖z‖∞ < γ1 - β` is violated. -/
theorem sign_accepts_boundary_norm :
    sign_internal MlDsa44 boundaryOracle = some boundarySig ∧
      vec_infinity_norm boundarySig.z = MlDsa44.gamma1 - MlDsa44.beta ∧
      ¬(vec_infinity_norm boundarySig.z < MlDsa44.gamma1 - MlDsa44.beta) :=
  ⟨boundary_sign_eq, by decide, by decide⟩

set_option maxRecDepth 100000 in
/-- Witness for `sign_internal_norm_bounds` under `boundaryOracle`. -/
theorem sign_internal_norm_bounds_witness :
    sign_internal MlDsa44 boundaryOracle = some boundarySig ∧
      vec_infinity_norm boundarySig.z ≤ MlDsa44.gamma1 - MlDsa44.beta ∧
        hamming_weight boundarySig.h ≤ MlDsa44.omega :=
  ⟨boundary_sign_eq,
    sign_internal_norm_bounds MlDsa44 boundaryOracle boundarySig boundary_sign_eq⟩

set_option maxRecDepth 100000 in
/-- C1: the round trip fails at the norm boundary.  `sign_internal` (with the
modelled pipeline) returns `boundarySig` with `‖z‖∞ = γ1 - β`, and `verify`
rejects that signature under every instantiation of its modelled stages,
because its own norm check is the strict `‖z‖∞ < γ1 - β`: sign's rejection
test (`>` instead of the spec's `≥`) lets through a signature that verify
cannot accept. -/
theorem verify_rejects_signed_boundary :
    sign_internal MlDsa44 boundaryOracle = some boundarySig ∧
      ∀ o : VerifyOracle, verify MlDsa44 o boundarySig ≠ some true := by
  refine ⟨boundary_sign_eq, ?_⟩
  intro o hcon
  cases huh : use_hint_vec MlDsa44.gamma2 boundarySig.h (o.wApprox boundarySig) with
  | none => simp [verify, huh] at hcon
  | some w1p =>
      have hb : decide (vec_infinity_norm boundarySig.z <
          MlDsa44.gamma1 - MlDsa44.beta) = false := by decide
      simp only [verify, huh, Option.some.injEq] at hcon
      rw [hb, Bool.false_and] at hcon
      exact Bool.noConfusion hcon

/-- C2 amended: `verify` returns `false` whenever `‖z‖∞ ≥ γ1 - β`, whatever
the recomputed challenge is; it performs no hint-weight check (see the
counterexample). -/
theorem verify_rejects_large_z (P : Params) (o : VerifyOracle) (σ : Sig)
    (b : Bool) (hn : P.gamma1 - P.beta ≤ vec_infinity_norm σ.z)
    (hv : verify P o σ = some b) : b = false := by
  cases huh : use_hint_vec P.gamma2 σ.h (o.wApprox σ) with
  | none => simp [verify, huh] at hv
  | some w1p =>
      simp only [verify, huh, Option.some.injEq] at hv
      have hb : decide (vec_infinity_norm σ.z < P.gamma1 - P.beta) = false := by
        simp only [decide_eq_false_iff_not]
        omega
      rw [← hv, hb, Bool.false_and]

/-- A verify oracle with empty outputs. -/
def trivialOracle : VerifyOracle where
  wApprox := fun _ => []
  cpTilde := fun _ => []

set_option maxRecDepth 100000 in
/-- Witness for `verify_rejects_large_z` on `boundarySig` (whose norm equals
`γ1 - β`) under `trivialOracle`. -/
theorem verify_rejects_large_z_witness :
    MlDsa44.gamma1 - MlDsa44.beta ≤ vec_infinity_norm boundarySig.z ∧
      (false : Bool) = false :=
  ⟨by decide,
    verify_rejects_large_z MlDsa44 trivialOracle boundarySig false (by decide)
      (by decide)⟩

/-- A hint with 81 set bits (one more than ω = 80 allows for ML-DSA-44). -/
def heavyHint : List (List Bool) :=
  (List.replicate 81 true ++ List.replicate 175 false) ::
    List.replicate 3 (List.replicate 256 false)

/-- A signature carrying `heavyHint` and an all-zero `z`. -/
def heavySig : Sig := ⟨List.replicate 32 0, zeroVec 4, heavyHint⟩

/-- A verify oracle whose recomputed challenge matches `heavySig`'s
`c_tilde`. -/
def matchingOracle : VerifyOracle where
  wApprox := fun _ => zeroVec 4
  cpTilde := fun _ => List.replicate 32 0

set_option maxRecDepth 100000 in
/-- C2 counterexample: a signature whose hint weight is 81 > ω = 80 still
verifies: `verify` contains no hint-weight check, so rejection is not
independent of the challenge comparison as claimed. -/
theorem verify_ignores_hint_weight :
    MlDsa44.omega < hamming_weight heavySig.h ∧
      verify MlDsa44 matchingOracle heavySig = some true := by
  constructor
  · decide
  · decide

/-- Counting the multiples of `L` below `n`: `⌈n / L⌉` of them. -/
theorem length_filter_mod (L : Nat) (hL : 0 < L) (n : Nat) :
    ((List.range n).filter (fun k => k % L == 0)).length = (n + L - 1) / L := by
  induction n with
  | zero =>
      simp only [List.range_zero, List.filter_nil, List.length_nil]
      rw [Nat.div_eq_of_lt (by omega)]
  | succ m ih =>
      rw [List.range_succ, List.filter_append, List.length_append, ih]
      have hsd : (m + L) / L = (m + L - 1) / L + if L ∣ m + L then 1 else 0 := by
        have h1 := Nat.succ_div (m + L - 1) L
        have h2 : m + L - 1 + 1 = m + L := by omega
        rw [h2] at h1
        exact h1
      have hme : m + 1 + L - 1 = m + L := by omega
      have hiff : L ∣ m + L ↔ L ∣ m := by
        rw [Nat.add_comm]
        exact Nat.dvd_add_right (dvd_refl L)
      by_cases hm : m % L = 0
      · have hdvd : L ∣ m := Nat.dvd_of_mod_eq_zero hm
        simp only [List.filter_cons, List.filter_nil, if_pos (by simp [hm] :
          (m % L == 0) = true), List.length_cons, List.length_nil]
        rw [hme, hsd, if_pos (hiff.mpr hdvd)]
      · have hdvd : ¬L ∣ m := fun hc => hm (by
          obtain ⟨t, rfl⟩ := hc
          exact Nat.mul_mod_right L t)
        simp only [List.filter_cons, List.filter_nil, if_neg (by simp [hm] :
          ¬(m % L == 0) = true), List.length_nil]
        rw [hme, hsd, if_neg (fun hc => hdvd (hiff.mp hc))]

/-- A mask polynomial whose lone large coefficient (`γ1 = 2^17`) forces the
norm rejection on every iteration. -/
def rejectPoly : List Nat := 131072 :: List.replicate 255 0

/-- A sign oracle under which every candidate is rejected (the z norm test
fires each time). -/
def rejectOracle : SignOracle where
  y := fun _ => rejectPoly :: zeroVec 3
  w := fun _ => zeroVec 4
  cTilde := fun _ => List.replicate 32 0
  cs1 := fun _ => zeroVec 4
  cs2 := fun _ => zeroVec 4
  ct0 := fun _ => zeroVec 4

set_option maxRecDepth 100000 in
/-- C9: the rejection loop examines exactly `⌈65535 / L⌉` counters (16384,
13107 and 9363 for L = 4, 5, 7 — at most `⌈2^16 / L⌉`), and when every
candidate is rejected `sign_internal` produces no signature: the source then
executes `panic!("Rejection sampling failed ...")` (modelled as `none`)
instead of returning a signing-failed error. -/
theorem sign_exhaustion_panics :
    (kappaList 4).length = 16384 ∧ (kappaList 5).length = 13107 ∧
      (kappaList 7).length = 9363 ∧
      sign_internal MlDsa44 rejectOracle = none := by
  refine ⟨?_, ?_, ?_, ?_⟩
  · rw [kappaList, length_filter_mod 4 (by norm_num)]
  · rw [kappaList, length_filter_mod 5 (by norm_num)]
  · rw [kappaList, length_filter_mod 7 (by norm_num)]
  · rw [sign_internal]
    refine List.findSome?_eq_none.mpr ?_
    intro k _
    have h0 : signAttempt MlDsa44 rejectOracle 0 = none := by decide
    exact h0
